import Mathlib

/-!
Verification of the metadata tree-walking scripts
(`src/aws_metadata_query.py` and `src/code.py`).

Python strings are modelled as `List Char`; the metadata service (the
network layer behind `_make_request`) is modelled as a function from a
path to either a response body or a failure.  The recursive walks take
an explicit fuel parameter, since the Python recursion has no bound of
its own; all theorems either hold for every fuel or are stated for a
fuel at least the depth of the namespace actually explored.
-/

/-- Python `str` modelled as a list of characters. -/
abbrev Str := List Char

/-- Shorthand turning a Lean string literal into the `List Char` model. -/
def S (s : String) : Str := s.data

/-- The whitespace characters stripped by Python `str.strip()` (the ASCII
ones; the scripts only ever meet spaces, tabs, carriage returns and
newlines). -/
def isPySpace (c : Char) : Bool :=
  c = ' ' || c = '\t' || c = '\n' || c = '\x0d' || c = '\x0b' || c = '\x0c'

/-- Python `s.strip()`: drop leading and trailing whitespace. -/
def pyStrip (s : Str) : Str :=
  ((s.dropWhile isPySpace).reverse.dropWhile isPySpace).reverse

/-- Python `s.split(c)` for a one-character separator: `"".split(c) = [""]`,
and every occurrence of `c` separates two (possibly empty) pieces. -/
def splitChar (c : Char) : Str → List Str
  | [] => [[]]
  | x :: xs =>
    match splitChar c xs with
    | [] => [[]]
    | g :: gs => if x = c then [] :: g :: gs else (x :: g) :: gs

/-- Python `s.rstrip('/')`: drop every trailing `'/'`. -/
def rstripSlash (s : Str) : Str :=
  (s.reverse.dropWhile (fun c => c = '/')).reverse

/-- Python `s.endswith('/')`. -/
def endsWithSlash (s : Str) : Bool := s.getLast? = some '/'

/-- Python `'\n' in s`. -/
def hasNewline (s : Str) : Bool := s.any (fun c => c = '\n')

/-- The syntactic directory test both scripts use on a response body:
`content.endswith('/') or '\n' in content`. -/
def isDirContent (s : Str) : Bool := endsWithSlash s || hasNewline s

/-- Python `s.replace(a, b)` for one-character arguments. -/
def replaceChar (a b : Char) (s : Str) : Str :=
  s.map (fun c => if c = a then b else c)

/-- The non-empty lines of the stripped response:
`[line for line in content.strip().split('\n') if line]`. -/
def filteredLines (content : Str) : List Str :=
  (splitChar '\n' (pyStrip content)).filter (fun l => !l.isEmpty)

/-- `AWSMetadataClient._parse_directory` of `src/aws_metadata_query.py`:
`[line.rstrip('/') for line in content.strip().split('\n') if line]`. -/
def parseDirectory (content : Str) : List Str :=
  (filteredLines content).map rstripSlash

/-- One Python `dict` assignment `d[k] = v`: an existing key keeps its
position and gets the new value, a new key is appended. -/
def pyInsert (d : List (Str × α)) (k : Str) (v : α) : List (Str × α) :=
  if k ∈ d.map Prod.fst then
    d.map (fun p => if p.1 = k then (k, v) else p)
  else d ++ [(k, v)]

/-- A Python `dict` built by assigning the pairs of `l` in order into `{}`. -/
def pyDict (l : List (Str × α)) : List (Str × α) :=
  l.foldl (fun d kv => pyInsert d kv.1 kv.2) []

/-- Python `dict` lookup `d[k]` (as an `Option`). -/
def lookupKey : List (Str × α) → Str → Option α
  | [], _ => none
  | (k, v) :: rest, x => if k = x then some v else lookupKey rest x

/-- A value of the nested structure built by
`AWSMetadataClient._get_nested_metadata` of `src/aws_metadata_query.py`:
a Python `str`, a Python `dict`, or `None` (stored for a child whose
fetch failed). -/
inductive AVal where
  | str (s : Str)
  | dict (entries : List (Str × AVal))
  | null

/-- The child endpoint `f"{endpoint}{item}/" if endpoint else f"{item}/"`
built in `_get_nested_metadata`. -/
def itemEndpointA (endpoint item : Str) : Str :=
  if endpoint.isEmpty then item ++ ['/'] else endpoint ++ item ++ ['/']

/-- `AWSMetadataClient._get_nested_metadata` of `src/aws_metadata_query.py`.
`fetch` models `_make_request` (which returns `None` on any failure);
the first argument is fuel for the unbounded Python recursion.  On a
failed fetch the function returns `{}`; a directory-shaped response
(trailing `'/'` or embedded newline) is parsed and each item fetched at
the child endpoint without its trailing slash, recursing when that
fetch is again directory-shaped and non-empty; any other response body
is returned as the value itself. -/
def getNestedMetadata (fetch : Str → Option Str) : Nat → Str → AVal
  | 0, _ => AVal.null
  | fuel + 1, endpoint =>
    match fetch endpoint with
    | none => AVal.dict []
    | some content =>
      if isDirContent content then
        AVal.dict (pyDict ((parseDirectory content).map (fun item =>
          match fetch (rstripSlash (itemEndpointA endpoint item)) with
          | some ic =>
            if !ic.isEmpty && isDirContent ic then
              (item, getNestedMetadata fetch fuel (itemEndpointA endpoint item))
            else (item, AVal.str ic)
          | none => (item, AVal.null))))
      else AVal.str content

/-- The `(key, value)` pair `_get_nested_metadata` computes for one listing
item (the loop body of the directory branch). -/
def childEntryA (fetch : Str → Option Str) (fuel : Nat) (endpoint item : Str) :
    Str × AVal :=
  match fetch (rstripSlash (itemEndpointA endpoint item)) with
  | some ic =>
    if !ic.isEmpty && isDirContent ic then
      (item, getNestedMetadata fetch fuel (itemEndpointA endpoint item))
    else (item, AVal.str ic)
  | none => (item, AVal.null)

/-- `AWSMetadataClient.get_metadata_key` of `src/aws_metadata_query.py`:
`key_path = key.replace('.', '/').replace('_', '-')`, then one
non-recursive fetch of `key_path`. -/
def getMetadataKey (fetch : Str → Option Str) (key : Str) : Option Str :=
  fetch (replaceChar '_' '-' (replaceChar '.' '/' key))

/-- The joined key `f"{prefix}/{key}" if prefix else key` used by
`collect_keys` inside `AWSMetadataClient.list_available_keys`. -/
def joinKey (pre k : Str) : Str :=
  if pre.isEmpty then k else pre ++ ['/'] ++ k

/-- The inner `collect_keys` of `AWSMetadataClient.list_available_keys`:
walk the dict depth-first; a dict value recurses with the extended
prefix, any other value (a string, or the `None` stored for a failed
child) contributes its slash-joined path. -/
def collectKeys : Str → List (Str × AVal) → List Str
  | _, [] => []
  | pre, (k, v) :: rest =>
    (match v with
     | AVal.dict entries => collectKeys (joinKey pre k) entries
     | _ => [joinKey pre k]) ++ collectKeys pre rest

/-- `collect_keys` instrumented to keep, next to each emitted path, the
tree node the path was emitted for.  `collectKeys` is exactly the first
projection of this list (proved below). -/
def collectLeaves : Str → List (Str × AVal) → List (Str × AVal)
  | _, [] => []
  | pre, (k, v) :: rest =>
    (match v with
     | AVal.dict entries => collectLeaves (joinKey pre k) entries
     | node => [(joinKey pre k, node)]) ++ collectLeaves pre rest

/-- `AWSMetadataClient.list_available_keys` of `src/aws_metadata_query.py`:
build the whole tree from the root, then flatten it with `collect_keys`.
When the root walk produces a bare string instead of a dict, the Python
`collect_keys(metadata)` would raise (`str` has no `.items()`); that
case is modelled as `none`. -/
def listAvailableKeys (fetch : Str → Option Str) (fuel : Nat) :
    Option (List Str) :=
  match getNestedMetadata fetch fuel [] with
  | AVal.dict entries => some (collectKeys [] entries)
  | _ => none

/-- `AWSMetadataClient._make_request` of `src/code.py`: `net` models the
network layer (`session.get` + `raise_for_status`, with `str(e)` as the
error payload); a failure is re-raised as
`Exception(f"Failed to retrieve metadata from {path}: {e}")`. -/
def makeRequest (net : Str → Except Str Str) (path : Str) : Except Str Str :=
  match net path with
  | Except.ok t => Except.ok t
  | Except.error e =>
    Except.error (S "Failed to retrieve metadata from " ++ path ++ S ": " ++ e)

/-- A value of the structure built by
`AWSMetadataClient._get_metadata_recursive` of `src/code.py`: a Python
`str` (a leaf value or an embedded error message) or a Python `dict`. -/
inductive CVal where
  | str (s : Str)
  | dict (entries : List (Str × CVal))

/-- The child path `f"{path}{line}" if path else line` built in
`_get_metadata_recursive` (the listing line keeps its trailing slash
here). -/
def itemPathC (path line : Str) : Str :=
  if path.isEmpty then line else path ++ line

/-- `AWSMetadataClient._get_metadata_recursive` of `src/code.py`.  Every
successful response is split into lines and treated as a listing; a
line with a trailing slash recurses under the key without the slash, any
other line is fetched as a value, a failed child fetch stores
`f"Error: {e}"`, and a failed fetch of `path` itself returns the bare
string `f"Error retrieving {path}: {e}"`.  The first argument is fuel
for the unbounded Python recursion. -/
def getMetadataRecursive (net : Str → Except Str Str) : Nat → Str → CVal
  | 0, _ => CVal.dict []
  | fuel + 1, path =>
    match makeRequest net path with
    | Except.error e => CVal.str (S "Error retrieving " ++ path ++ S ": " ++ e)
    | Except.ok content =>
      CVal.dict (pyDict ((filteredLines content).map (fun line =>
        if endsWithSlash line then
          (line.dropLast, getMetadataRecursive net fuel (itemPathC path line))
        else
          match makeRequest net (itemPathC path line) with
          | Except.ok v => (line, CVal.str v)
          | Except.error e => (line, CVal.str (S "Error: " ++ e)))))

/-- The `(key, value)` pair `_get_metadata_recursive` computes for one
listing line (the loop body). -/
def childEntryC (net : Str → Except Str Str) (fuel : Nat) (path line : Str) :
    Str × CVal :=
  if endsWithSlash line then
    (line.dropLast, getMetadataRecursive net fuel (itemPathC path line))
  else
    match makeRequest net (itemPathC path line) with
    | Except.ok v => (line, CVal.str v)
    | Except.error e => (line, CVal.str (S "Error: " ++ e))

/-- The key under which `_get_metadata_recursive` stores a listing line:
the line without its trailing slash for a directory line, the line
itself otherwise. -/
def lineKeyC (line : Str) : Str :=
  if endsWithSlash line then line.dropLast else line

/-- `AWSMetadataClient.get_specific_key` of `src/code.py`: one
non-recursive fetch of the key path, returned as `{key_path: value}`,
or `{"error": f"Could not retrieve key '{key_path}': {e}"}` when the
fetch raises. -/
def getSpecificKey (net : Str → Except Str Str) (keyPath : Str) :
    List (Str × Str) :=
  match makeRequest net keyPath with
  | Except.ok v => [(keyPath, v)]
  | Except.error e =>
    [(S "error", S "Could not retrieve key '" ++ keyPath ++ S "': " ++ e)]

/-- A tree node hanging at enumeration prefix `pre` is faithful to the
fetcher when every string node in it holds exactly the fetcher response
for its slash-joined path. -/
inductive Faithful (fetch : Str → Option Str) : Str → AVal → Prop where
  | str {pre v : Str} : fetch pre = some v → Faithful fetch pre (AVal.str v)
  | null {pre : Str} : Faithful fetch pre AVal.null
  | dict {pre : Str} {entries : List (Str × AVal)} :
      (∀ k v, (k, v) ∈ entries → Faithful fetch (joinKey pre k) v) →
      Faithful fetch pre (AVal.dict entries)

/-- The relation between the endpoint the walk is called on and the
enumeration prefix the resulting node hangs at: the root, or an
endpoint that is the prefix plus one trailing separator. -/
def EndpointRel (e pre : Str) : Prop :=
  (e = [] ∧ pre = []) ∨ (pre ≠ [] ∧ e = pre ++ ['/'])

/-- The namespace below endpoint `e`, as `_get_nested_metadata` explores
it, has depth at most `n`: either the walk of `e` recurses into no child
(failed fetch or leaf response), or the response is a listing and every
child the walk would recurse into is bounded by one less.  A finite
acyclic namespace admits such a bound at every path. -/
inductive ABounded (fetch : Str → Option Str) : Nat → Str → Prop where
  | flat (n : Nat) (e : Str)
      (h : ∀ c, fetch e = some c → isDirContent c = false) :
      ABounded fetch n e
  | dir (n : Nat) (e c : Str) (hf : fetch e = some c)
      (hdir : isDirContent c = true)
      (hch : ∀ item, item ∈ parseDirectory c → ∀ ic,
        fetch (rstripSlash (itemEndpointA e item)) = some ic →
        (!ic.isEmpty && isDirContent ic) = true →
        ABounded fetch n (itemEndpointA e item)) :
      ABounded fetch (n + 1) e

/-- The depth bound for `_get_metadata_recursive` of `src/code.py`: the
walk of `path` recurses into no child (failed fetch, or a listing with
no directory line), or every directory line is bounded by one less. -/
inductive CBounded (net : Str → Except Str Str) : Nat → Str → Prop where
  | flat (n : Nat) (p : Str)
      (h : ∀ c, makeRequest net p = Except.ok c →
        ∀ line, line ∈ filteredLines c → endsWithSlash line = false) :
      CBounded net n p
  | dir (n : Nat) (p c : Str) (hf : makeRequest net p = Except.ok c)
      (hch : ∀ line, line ∈ filteredLines c → endsWithSlash line = true →
        CBounded net n (itemPathC p line)) :
      CBounded net (n + 1) p

/-- The normalization asserted by claim C5, read literally: every
occurrence of `'.'` and of `'_'` is replaced by `'/'`. -/
def claimC5Norm (key : Str) : Str :=
  key.map (fun c => if c = '.' || c = '_' then '/' else c)

/-- The normalization `get_metadata_key` actually performs, as one
simultaneous pass over the key: `'.'` becomes `'/'` and `'_'` becomes
`'-'`. -/
def specC5Norm (key : Str) : Str :=
  key.map (fun c => if c = '.' then '/' else if c = '_' then '-' else c)

/-- The key set asserted by claim C4, read literally: the non-empty lines
of the listing response, each with a (single) trailing separator
stripped. -/
def claimC4Keys (content : Str) : List Str :=
  ((splitChar '\n' content).filter (fun l => !l.isEmpty)).map
    (fun l => if endsWithSlash l then l.dropLast else l)

/-- The key set of a listing per the amended claim: the non-empty lines
of the whitespace-trimmed response text, each with every trailing
separator character stripped. -/
def listingKeys (content : Str) : List Str :=
  ((splitChar '\n' (pyStrip content)).filter (fun l => !l.isEmpty)).map
    rstripSlash

/-- The lookup table of the C7 witness namespace: a root listing with
one leaf child `a -> "v"`. -/
def tableW (p : Str) : Option Str :=
  if p = [] then some (S "a\n")
  else if p = S "a" then some (S "v") else none

/-- The C7 witness fetcher: `tableW` read through `rstrip('/')`, so it
ignores trailing separators by construction. -/
def fetchW (p : Str) : Option Str := tableW (rstripSlash p)


example :
    getNestedMetadata (fun p => if p = [] then some (S "a\n")
      else if p = S "a" then some (S "v") else none) 2 []
    = AVal.dict [(S "a", AVal.str (S "v"))] := rfl

example :
    getNestedMetadata (fun _ => some []) 1 [] = AVal.str [] := rfl

example :
    getMetadataRecursive (fun p => if p = [] then Except.ok (S "a\nb/\n")
      else if p = S "a" then Except.ok (S "x")
      else if p = S "b/" then Except.ok (S "c\n")
      else if p = S "b/c" then Except.ok (S "y")
      else Except.error (S "boom")) 3 []
    = CVal.dict [(S "a", CVal.str (S "x")),
        (S "b", CVal.dict [(S "c", CVal.str (S "y"))])] := rfl

example :
    getSpecificKey (fun _ => Except.error (S "down")) (S "ami-id")
    = [(S "error",
        S "Could not retrieve key 'ami-id': Failed to retrieve metadata from ami-id: down")] := rfl

example : getMetadataKey (fun p => some p) (S "a.b_c") = some (S "a/b-c") := rfl

/-! ### Dictionary lemmas -/

theorem keys_pyInsert (d : List (Str × α)) (k : Str) (v : α) :
    (pyInsert d k v).map Prod.fst
    = if k ∈ d.map Prod.fst then d.map Prod.fst else d.map Prod.fst ++ [k] := by
  unfold pyInsert
  split
  · simp only [List.map_map, if_pos ‹k ∈ d.map Prod.fst›]
    refine List.map_congr_left ?_
    intro p _
    by_cases h : p.1 = k <;> simp [h, Function.comp]
  · simp [if_neg ‹¬ k ∈ d.map Prod.fst›]

theorem mem_keys_pyInsert {d : List (Str × α)} {k x : Str} {v : α} :
    x ∈ (pyInsert d k v).map Prod.fst ↔ x ∈ d.map Prod.fst ∨ x = k := by
  rw [keys_pyInsert]
  split
  · constructor
    · exact fun h => Or.inl h
    · rintro (h | rfl)
      · exact h
      · assumption
  · rw [List.mem_append, List.mem_singleton]

theorem mem_keys_pyDict_aux (l acc : List (Str × α)) (x : Str) :
    x ∈ ((l.foldl (fun d kv => pyInsert d kv.1 kv.2) acc).map Prod.fst)
    ↔ x ∈ acc.map Prod.fst ∨ x ∈ l.map Prod.fst := by
  induction l generalizing acc with
  | nil =>
    simp only [List.foldl_nil, List.map_nil, List.not_mem_nil, or_false]
  | cons kv rest ih =>
    simp only [List.foldl_cons, ih, mem_keys_pyInsert, List.map_cons,
      List.mem_cons]
    tauto

/-- The key set of a Python dict built from a pair list is the set of the
listed keys. -/
theorem mem_keys_pyDict (l : List (Str × α)) (x : Str) :
    x ∈ (pyDict l).map Prod.fst ↔ x ∈ l.map Prod.fst := by
  unfold pyDict
  rw [mem_keys_pyDict_aux]
  simp only [List.map_nil, List.not_mem_nil, false_or]

theorem mem_of_mem_pyInsert {d : List (Str × α)} {k : Str} {v : α} {p}
    (h : p ∈ pyInsert d k v) : p ∈ d ∨ p = (k, v) := by
  unfold pyInsert at h
  split at h
  · rcases List.mem_map.mp h with ⟨q, hq, he⟩
    by_cases hk : q.1 = k
    · right; rw [if_pos hk] at he; exact he.symm
    · left; rw [if_neg hk] at he; exact he ▸ hq
  · rcases List.mem_append.mp h with h | h
    · exact Or.inl h
    · right; simpa using h

theorem mem_of_mem_pyDict_aux {l acc : List (Str × α)} {p}
    (h : p ∈ l.foldl (fun d kv => pyInsert d kv.1 kv.2) acc) :
    p ∈ acc ∨ p ∈ l := by
  induction l generalizing acc with
  | nil => exact Or.inl h
  | cons kv rest ih =>
    have hstep : p ∈ rest.foldl (fun d kv => pyInsert d kv.1 kv.2)
        (pyInsert acc kv.1 kv.2) := h
    rcases ih hstep with h' | h'
    · rcases mem_of_mem_pyInsert h' with h'' | h''
      · exact Or.inl h''
      · right
        rw [h'']
        exact List.mem_cons_self _ _
    · right
      exact List.mem_cons_of_mem _ h'

/-- Every pair of the built dict is one of the listed pairs. -/
theorem mem_of_mem_pyDict {l : List (Str × α)} {p} (h : p ∈ pyDict l) :
    p ∈ l := by
  rcases mem_of_mem_pyDict_aux h with h' | h'
  · cases h'
  · exact h'

theorem pyDict_eq_of_nodup_aux (l acc : List (Str × α))
    (h : ((acc ++ l).map Prod.fst).Nodup) :
    l.foldl (fun d kv => pyInsert d kv.1 kv.2) acc = acc ++ l := by
  induction l generalizing acc with
  | nil => simp only [List.foldl_nil, List.append_nil]
  | cons kv rest ih =>
    have hk : kv.1 ∉ acc.map Prod.fst := by
      rw [List.map_append] at h
      rcases List.nodup_append.mp h with ⟨_, _, hdis⟩
      intro hmem
      refine hdis hmem ?_
      rw [List.map_cons]
      exact List.mem_cons_self _ _
    have hins : pyInsert acc kv.1 kv.2 = acc ++ [kv] := by
      unfold pyInsert
      rw [if_neg hk]
    have h' : (((acc ++ [kv]) ++ rest).map Prod.fst).Nodup := by
      rwa [List.append_assoc, List.singleton_append]
    simp only [List.foldl_cons, hins]
    rw [ih (acc ++ [kv]) h', List.append_assoc, List.singleton_append]

/-- Building a Python dict from pairs with pairwise distinct keys keeps the
pair list as it is. -/
theorem pyDict_eq_of_nodup {l : List (Str × α)}
    (h : (l.map Prod.fst).Nodup) : pyDict l = l := by
  have h0 : (([] ++ l : List (Str × α)).map Prod.fst).Nodup := by
    rwa [List.nil_append]
  have := pyDict_eq_of_nodup_aux l [] h0
  rwa [List.nil_append] at this

theorem lookupKey_eq_of_mem_nodup {l : List (Str × α)} {k : Str} {v : α}
    (hn : (l.map Prod.fst).Nodup) (hm : (k, v) ∈ l) :
    lookupKey l k = some v := by
  induction l with
  | nil => cases hm
  | cons p rest ih =>
    obtain ⟨k', v'⟩ := p
    simp only [List.map_cons, List.nodup_cons] at hn
    rcases List.mem_cons.mp hm with heq | hm'
    · cases heq
      simp only [lookupKey]
      exact if_pos trivial
    · have hne : k' ≠ k := by
        rintro rfl
        exact hn.1 (List.mem_map.mpr ⟨(k', v), hm', rfl⟩)
      simp only [lookupKey, if_neg hne]
      exact ih hn.2 hm'

/-- Looking a key up in the built dict gives its listed value when the
listed keys are pairwise distinct. -/
theorem lookupKey_pyDict_of_nodup {l : List (Str × α)} {k : Str} {v : α}
    (hn : (l.map Prod.fst).Nodup) (hm : (k, v) ∈ l) :
    lookupKey (pyDict l) k = some v := by
  rw [pyDict_eq_of_nodup hn]
  exact lookupKey_eq_of_mem_nodup hn hm

/-! ### Unfolding lemmas for the two walks -/

theorem getNestedMetadata_fail {fetch : Str → Option Str} {endpoint : Str}
    (h : fetch endpoint = none) (fuel : Nat) :
    getNestedMetadata fetch (fuel + 1) endpoint = AVal.dict [] := by
  rw [getNestedMetadata, h]

theorem getNestedMetadata_leaf {fetch : Str → Option Str}
    {endpoint content : Str} (h : fetch endpoint = some content)
    (hdir : isDirContent content = false) (fuel : Nat) :
    getNestedMetadata fetch (fuel + 1) endpoint = AVal.str content := by
  rw [getNestedMetadata, h]
  simp only [hdir, Bool.false_eq_true, if_false]

theorem getNestedMetadata_dir {fetch : Str → Option Str}
    {endpoint content : Str} (h : fetch endpoint = some content)
    (hdir : isDirContent content = true) (fuel : Nat) :
    getNestedMetadata fetch (fuel + 1) endpoint
    = AVal.dict (pyDict ((parseDirectory content).map
        (childEntryA fetch fuel endpoint))) := by
  rw [getNestedMetadata, h]
  simp only [hdir, if_true]
  rfl

theorem getMetadataRecursive_err {net : Str → Except Str Str}
    {path e : Str} (h : makeRequest net path = Except.error e) (fuel : Nat) :
    getMetadataRecursive net (fuel + 1) path
    = CVal.str (S "Error retrieving " ++ path ++ S ": " ++ e) := by
  rw [getMetadataRecursive, h]

theorem getMetadataRecursive_ok {net : Str → Except Str Str}
    {path content : Str} (h : makeRequest net path = Except.ok content)
    (fuel : Nat) :
    getMetadataRecursive net (fuel + 1) path
    = CVal.dict (pyDict ((filteredLines content).map
        (childEntryC net fuel path))) := by
  rw [getMetadataRecursive, h]
  rfl

theorem childEntryA_fst (fetch : Str → Option Str) (fuel : Nat)
    (endpoint item : Str) :
    (childEntryA fetch fuel endpoint item).1 = item := by
  unfold childEntryA
  cases fetch (rstripSlash (itemEndpointA endpoint item)) with
  | none => rfl
  | some ic =>
    by_cases hic : (!ic.isEmpty && isDirContent ic) = true
    · simp only [hic, if_true]
    · simp only [hic, if_false]
      rfl

theorem childEntryC_fst (net : Str → Except Str Str) (fuel : Nat)
    (path line : Str) :
    (childEntryC net fuel path line).1 = lineKeyC line := by
  unfold childEntryC lineKeyC
  by_cases hl : endsWithSlash line = true
  · simp only [hl, if_true]
  · simp only [hl, if_false]
    cases makeRequest net (itemPathC path line) with
    | ok v => rfl
    | error e => rfl

/-! ### Lemmas about trailing-slash stripping -/

theorem rstripSlash_append_slash (s : Str) :
    rstripSlash (s ++ ['/']) = rstripSlash s := by
  unfold rstripSlash
  rw [List.reverse_append, List.reverse_singleton, List.singleton_append,
    List.dropWhile_cons]
  simp

theorem rstripSlash_eq_self {s : Str} (h : endsWithSlash s = false) :
    rstripSlash s = s := by
  have hne : s.getLast? ≠ some '/' := of_decide_eq_false h
  unfold rstripSlash
  cases hr : s.reverse with
  | nil =>
    rw [List.reverse_eq_nil_iff.mp hr]
    rfl
  | cons c t =>
    have hc : ¬ c = '/' := by
      intro hcc
      apply hne
      rw [← List.head?_reverse, hr, hcc]
      rfl
    rw [List.dropWhile_cons, if_neg (by simpa using hc), ← hr,
      List.reverse_reverse]

theorem head_dropWhile_false (p : Char → Bool) (l : Str) (c : Char)
    (h : (l.dropWhile p).head? = some c) : p c = false := by
  induction l with
  | nil => cases h
  | cons a t ih =>
    rw [List.dropWhile_cons] at h
    by_cases ha : p a = true
    · rw [if_pos ha] at h
      exact ih h
    · rw [if_neg ha] at h
      cases h
      simpa using ha

theorem endsWithSlash_rstripSlash (s : Str) :
    endsWithSlash (rstripSlash s) = false := by
  unfold endsWithSlash rstripSlash
  rw [List.getLast?_reverse]
  cases hh : (s.reverse.dropWhile (fun c => c = '/')).head? with
  | none => rfl
  | some c =>
    have hc := head_dropWhile_false _ _ c hh
    exact decide_eq_false (fun h => (of_decide_eq_false hc) (Option.some.inj h))

theorem rstripSlash_idem (s : Str) :
    rstripSlash (rstripSlash s) = rstripSlash s :=
  rstripSlash_eq_self (endsWithSlash_rstripSlash s)

theorem endsWithSlash_append {a b : Str} (hb : b ≠ [])
    (h : endsWithSlash b = false) : endsWithSlash (a ++ b) = false := by
  unfold endsWithSlash at h ⊢
  rwa [List.getLast?_append_of_ne_nil _ hb]

theorem rstripSlash_append {a b : Str} (hb : b ≠ [])
    (h : endsWithSlash b = false) : rstripSlash (a ++ b) = a ++ b :=
  rstripSlash_eq_self (endsWithSlash_append hb h)

theorem endsWithSlash_of_mem_parseDirectory {content item : Str}
    (h : item ∈ parseDirectory content) : endsWithSlash item = false := by
  rcases List.mem_map.mp h with ⟨line, _, rfl⟩
  exact endsWithSlash_rstripSlash line

theorem replaceChar_eq_self {a b : Char} {s : Str} (h : a ∉ s) :
    replaceChar a b s = s := by
  unfold replaceChar
  induction s with
  | nil => rfl
  | cons c t ih =>
    simp only [List.map_cons]
    have hca : ¬ c = a := fun hc => h (by rw [hc]; exact List.mem_cons_self _ _)
    rw [if_neg hca, ih (fun hm => h (List.mem_cons_of_mem _ hm))]

/-- When the key contains neither separator alias, `get_metadata_key`
fetches the key itself. -/
theorem getMetadataKey_eq_fetch {fetch : Str → Option Str} {key : Str}
    (hdot : '.' ∉ key) (hund : '_' ∉ key) :
    getMetadataKey fetch key = fetch key := by
  unfold getMetadataKey
  rw [replaceChar_eq_self hdot, replaceChar_eq_self hund]


/-! ### The key enumerator -/

theorem isEmpty_false {l : Str} (h : l ≠ []) : l.isEmpty = false := by
  cases l with
  | nil => exact absurd rfl h
  | cons a t => rfl

theorem collectKeys_nil (pre : Str) : collectKeys pre [] = [] := by
  rw [collectKeys]

theorem collectLeaves_nil (pre : Str) : collectLeaves pre [] = [] := by
  rw [collectLeaves]

theorem collectKeys_cons_dict (pre k : Str) (e rest : List (Str × AVal)) :
    collectKeys pre ((k, AVal.dict e) :: rest)
    = collectKeys (joinKey pre k) e ++ collectKeys pre rest := by
  rw [collectKeys]

theorem collectKeys_cons_str (pre k s : Str) (rest : List (Str × AVal)) :
    collectKeys pre ((k, AVal.str s) :: rest)
    = [joinKey pre k] ++ collectKeys pre rest := by
  rw [collectKeys]
  intro e' h
  exact AVal.noConfusion h

theorem collectKeys_cons_null (pre k : Str) (rest : List (Str × AVal)) :
    collectKeys pre ((k, AVal.null) :: rest)
    = [joinKey pre k] ++ collectKeys pre rest := by
  rw [collectKeys]
  intro e' h
  exact AVal.noConfusion h

theorem collectLeaves_cons_dict (pre k : Str) (e rest : List (Str × AVal)) :
    collectLeaves pre ((k, AVal.dict e) :: rest)
    = collectLeaves (joinKey pre k) e ++ collectLeaves pre rest := by
  rw [collectLeaves]

theorem collectLeaves_cons_str (pre k s : Str) (rest : List (Str × AVal)) :
    collectLeaves pre ((k, AVal.str s) :: rest)
    = [(joinKey pre k, AVal.str s)] ++ collectLeaves pre rest := by
  rw [collectLeaves]
  intro e' h
  exact AVal.noConfusion h

theorem collectLeaves_cons_null (pre k : Str) (rest : List (Str × AVal)) :
    collectLeaves pre ((k, AVal.null) :: rest)
    = [(joinKey pre k, AVal.null)] ++ collectLeaves pre rest := by
  rw [collectLeaves]
  intro e' h
  exact AVal.noConfusion h

/-- `collect_keys` emits exactly the paths of the instrumented
enumeration. -/
theorem collectKeys_eq_map_fst : ∀ (pre : Str) (entries : List (Str × AVal)),
    collectKeys pre entries = (collectLeaves pre entries).map Prod.fst
  | pre, [] => by
    rw [collectKeys_nil, collectLeaves_nil]
    rfl
  | pre, (k, AVal.dict e) :: rest => by
    rw [collectKeys_cons_dict, collectLeaves_cons_dict, List.map_append,
      collectKeys_eq_map_fst (joinKey pre k) e, collectKeys_eq_map_fst pre rest]
  | pre, (k, AVal.str s) :: rest => by
    rw [collectKeys_cons_str, collectLeaves_cons_str, List.map_append,
      collectKeys_eq_map_fst pre rest]
    rfl
  | pre, (k, AVal.null) :: rest => by
    rw [collectKeys_cons_null, collectLeaves_cons_null, List.map_append,
      collectKeys_eq_map_fst pre rest]
    rfl

/-- A non-dict entry of a mapping is enumerated (with its node) under its
slash-joined path. -/
theorem mem_collectLeaves_of_mem :
    ∀ (pre : Str) (entries : List (Str × AVal)) (k : Str) (v : AVal),
    (k, v) ∈ entries → (∀ e', v ≠ AVal.dict e') →
    (joinKey pre k, v) ∈ collectLeaves pre entries
  | _, [], _, _, hm, _ => absurd hm (List.not_mem_nil _)
  | pre, (k', v') :: rest, k, v, hm, hnd => by
    rcases List.mem_cons.mp hm with heq | hm'
    · injection heq with h1 h2
      subst h1
      subst h2
      cases v with
      | dict e => exact absurd rfl (hnd e)
      | str s =>
        rw [collectLeaves_cons_str]
        exact List.mem_append.mpr (Or.inl (List.mem_singleton.mpr rfl))
      | null =>
        rw [collectLeaves_cons_null]
        exact List.mem_append.mpr (Or.inl (List.mem_singleton.mpr rfl))
    · have hrec := mem_collectLeaves_of_mem pre rest k v hm' hnd
      cases v' with
      | dict e =>
        rw [collectLeaves_cons_dict]
        exact List.mem_append.mpr (Or.inr hrec)
      | str s =>
        rw [collectLeaves_cons_str]
        exact List.mem_append.mpr (Or.inr hrec)
      | null =>
        rw [collectLeaves_cons_null]
        exact List.mem_append.mpr (Or.inr hrec)

/-! ### Faithfulness of the tree built by the walk -/


/-- Every enumerated node of a faithful mapping is itself faithful at its
enumerated path. -/
theorem faithful_collectLeaves {fetch : Str → Option Str} :
    ∀ (pre : Str) (entries : List (Str × AVal)),
    (∀ k v, (k, v) ∈ entries → Faithful fetch (joinKey pre k) v) →
    ∀ p n, (p, n) ∈ collectLeaves pre entries → Faithful fetch p n
  | pre, [], _, p, n, h => by
    rw [collectLeaves_nil] at h
    exact absurd h (List.not_mem_nil _)
  | pre, (k, v) :: rest, hf, p, n, h => by
    have hv : Faithful fetch (joinKey pre k) v :=
      hf k v (List.mem_cons_self _ _)
    have hrest : ∀ k' v', (k', v') ∈ rest → Faithful fetch (joinKey pre k') v' :=
      fun k' v' hm => hf k' v' (List.mem_cons_of_mem _ hm)
    cases v with
    | dict e =>
      rw [collectLeaves_cons_dict] at h
      rcases List.mem_append.mp h with h1 | h2
      · cases hv with
        | dict he => exact faithful_collectLeaves (joinKey pre k) e he p n h1
      · exact faithful_collectLeaves pre rest hrest p n h2
    | str s =>
      rw [collectLeaves_cons_str] at h
      rcases List.mem_append.mp h with h1 | h2
      · cases List.mem_singleton.mp h1
        exact hv
      · exact faithful_collectLeaves pre rest hrest p n h2
    | null =>
      rw [collectLeaves_cons_null] at h
      rcases List.mem_append.mp h with h1 | h2
      · cases List.mem_singleton.mp h1
        exact hv
      · exact faithful_collectLeaves pre rest hrest p n h2


theorem rstrip_itemEndpointA {e pre item : Str} (hrel : EndpointRel e pre)
    (hitem : item ≠ []) (hslash : endsWithSlash item = false) :
    rstripSlash (itemEndpointA e item) = joinKey pre item := by
  rcases hrel with ⟨he, hpre⟩ | ⟨hpre, he⟩
  · subst he hpre
    unfold itemEndpointA joinKey
    simp only [List.isEmpty_nil, if_true]
    rw [rstripSlash_append_slash, rstripSlash_eq_self hslash]
  · subst he
    unfold itemEndpointA joinKey
    rw [if_neg (by rw [isEmpty_false (by simp)]; exact Bool.false_ne_true),
      if_neg (by rw [isEmpty_false hpre]; exact Bool.false_ne_true)]
    rw [rstripSlash_append_slash]
    exact rstripSlash_append hitem hslash

theorem itemEndpointA_eq_joinKey {e pre : Str} (item : Str)
    (hrel : EndpointRel e pre) :
    itemEndpointA e item = joinKey pre item ++ ['/'] := by
  rcases hrel with ⟨he, hpre⟩ | ⟨hpre, he⟩
  · subst he hpre
    unfold itemEndpointA joinKey
    simp only [List.isEmpty_nil, if_true]
  · subst he
    unfold itemEndpointA joinKey
    rw [if_neg (by rw [isEmpty_false (by simp)]; exact Bool.false_ne_true),
      if_neg (by rw [isEmpty_false hpre]; exact Bool.false_ne_true)]

theorem joinKey_ne_nil {pre item : Str} (hitem : item ≠ []) :
    joinKey pre item ≠ [] := by
  unfold joinKey
  by_cases hp : pre.isEmpty = true
  · rwa [if_pos hp]
  · rw [if_neg hp]
    simp

/-- The tree `_get_nested_metadata` builds is faithful: provided the
fetcher ignores trailing separators and never lists an empty child name,
every string node holds the fetcher response for its enumerated path. -/
theorem walk_faithful {fetch : Str → Option Str}
    (hS : ∀ p, fetch p = fetch (rstripSlash p))
    (hG : ∀ p c, fetch p = some c → isDirContent c = true →
      [] ∉ parseDirectory c) :
    ∀ (fuel : Nat) (e pre : Str), EndpointRel e pre →
    Faithful fetch pre (getNestedMetadata fetch fuel e) := by
  intro fuel
  induction fuel with
  | zero =>
    intro e pre _
    exact Faithful.null
  | succ n ih =>
    intro e pre hrel
    cases hf : fetch e with
    | none =>
      rw [getNestedMetadata_fail hf]
      exact Faithful.dict (fun k v h => absurd h (List.not_mem_nil _))
    | some content =>
      by_cases hdir : isDirContent content = true
      · rw [getNestedMetadata_dir hf hdir]
        refine Faithful.dict ?_
        intro k v hm
        rcases List.mem_map.mp (mem_of_mem_pyDict hm) with ⟨item, hitem, he⟩
        have hkey : item = k := by
          have hfst := childEntryA_fst fetch n e item
          rw [he] at hfst
          exact hfst.symm
        subst hkey
        have hne : item ≠ [] := fun h0 => (hG e content hf hdir) (h0 ▸ hitem)
        have hsl : endsWithSlash item = false :=
          endsWithSlash_of_mem_parseDirectory hitem
        have hpath : rstripSlash (itemEndpointA e item) = joinKey pre item :=
          rstrip_itemEndpointA hrel hne hsl
        unfold childEntryA at he
        split at he
        next ic hfc =>
          split at he
          next hic =>
            cases he
            exact ih (itemEndpointA e item) (joinKey pre item)
              (Or.inr ⟨joinKey_ne_nil hne, itemEndpointA_eq_joinKey item hrel⟩)
          next hic =>
            cases he
            refine Faithful.str ?_
            rw [← hpath]
            exact hfc
        next hfc =>
          cases he
          exact Faithful.null
      · have hdir' : isDirContent content = false := by
          simp only [Bool.not_eq_true] at hdir
          exact hdir
        rw [getNestedMetadata_leaf hf hdir']
        refine Faithful.str ?_
        rcases hrel with ⟨he, hpre⟩ | ⟨hpre, he⟩
        · subst he hpre
          exact hf
        · subst he
          rw [hS pre, ← rstripSlash_append_slash pre, ← hS (pre ++ ['/'])]
          exact hf

/-! ### Fuel stability under a depth bound -/


theorem childEntryA_fuel_congr {fetch : Str → Option Str} {e item : Str}
    {m k : Nat}
    (h : ∀ ic, fetch (rstripSlash (itemEndpointA e item)) = some ic →
      (!ic.isEmpty && isDirContent ic) = true →
      getNestedMetadata fetch m (itemEndpointA e item)
      = getNestedMetadata fetch k (itemEndpointA e item)) :
    childEntryA fetch m e item = childEntryA fetch k e item := by
  unfold childEntryA
  split
  next ic hfc =>
    by_cases hic : (!ic.isEmpty && isDirContent ic) = true
    · rw [if_pos hic, if_pos hic, h ic hfc hic]
    · rw [if_neg hic, if_neg hic]
  next => rfl

/-- Any fuel at least the depth bound gives the same tree as the bound
itself: the walk needs no more nested calls than the namespace is deep. -/
theorem walkA_fuel_stable {fetch : Str → Option Str} {n : Nat} {e : Str}
    (hb : ABounded fetch n e) :
    ∀ m, n ≤ m →
    getNestedMetadata fetch (m + 1) e = getNestedMetadata fetch (n + 1) e := by
  induction hb with
  | flat n e h =>
    intro m _
    cases hf : fetch e with
    | none => rw [getNestedMetadata_fail hf, getNestedMetadata_fail hf]
    | some c =>
      rw [getNestedMetadata_leaf hf (h c hf), getNestedMetadata_leaf hf (h c hf)]
  | dir n e c hf hdir hch ih =>
    intro m hm
    obtain ⟨k, rfl⟩ : ∃ k, m = k + 1 :=
      ⟨m - 1, (Nat.succ_pred_eq_of_pos
        (Nat.lt_of_lt_of_le (Nat.succ_pos n) hm)).symm⟩
    have hkn : n ≤ k := Nat.succ_le_succ_iff.mp hm
    rw [getNestedMetadata_dir hf hdir, getNestedMetadata_dir hf hdir]
    congr 2
    refine List.map_congr_left ?_
    intro item hitem
    refine childEntryA_fuel_congr ?_
    intro ic hfc hic
    exact ih item hitem ic hfc hic k hkn


theorem childEntryC_fuel_congr {net : Str → Except Str Str}
    {path line : Str} {m k : Nat}
    (h : endsWithSlash line = true →
      getMetadataRecursive net m (itemPathC path line)
      = getMetadataRecursive net k (itemPathC path line)) :
    childEntryC net m path line = childEntryC net k path line := by
  unfold childEntryC
  by_cases hl : endsWithSlash line = true
  · rw [if_pos hl, if_pos hl, h hl]
  · rw [if_neg hl, if_neg hl]

/-- Fuel stability for the `src/code.py` walk. -/
theorem walkC_fuel_stable {net : Str → Except Str Str} {n : Nat} {p : Str}
    (hb : CBounded net n p) :
    ∀ m, n ≤ m →
    getMetadataRecursive net (m + 1) p = getMetadataRecursive net (n + 1) p := by
  induction hb with
  | flat n p h =>
    intro m _
    cases hf : makeRequest net p with
    | error e => rw [getMetadataRecursive_err hf, getMetadataRecursive_err hf]
    | ok c =>
      rw [getMetadataRecursive_ok hf, getMetadataRecursive_ok hf]
      congr 2
      refine List.map_congr_left ?_
      intro line hline
      refine childEntryC_fuel_congr ?_
      intro hl
      exact absurd hl (by rw [h c hf line hline]; exact Bool.false_ne_true)
  | dir n p c hf hch ih =>
    intro m hm
    obtain ⟨k, rfl⟩ : ∃ k, m = k + 1 :=
      ⟨m - 1, (Nat.succ_pred_eq_of_pos
        (Nat.lt_of_lt_of_le (Nat.succ_pos n) hm)).symm⟩
    have hkn : n ≤ k := Nat.succ_le_succ_iff.mp hm
    rw [getMetadataRecursive_ok hf, getMetadataRecursive_ok hf]
    congr 2
    refine List.map_congr_left ?_
    intro line hline
    refine childEntryC_fuel_congr ?_
    intro hl
    exact ih line hline hl k hkn

/-! ### Looking up one mapped entry -/

theorem map_self (l : List Str) : l.map (fun i => i) = l := by
  induction l with
  | nil => rfl
  | cons a t ih => rw [List.map_cons, ih]

/-- Looking up the key of one listing item in the dict built from the
per-item entries, when the item keys are pairwise distinct. -/
theorem lookup_mapped_pyDict {β : Type} {items : List Str} {f : Str → Str × β}
    {keyF : Str → Str} (hfst : ∀ i, (f i).1 = keyF i)
    (hn : (items.map keyF).Nodup) {X : Str} (hX : X ∈ items) :
    lookupKey (pyDict (items.map f)) (keyF X) = some (f X).2 := by
  have hcomp : ((items.map f).map Prod.fst) = items.map keyF := by
    rw [List.map_map]
    exact List.map_congr_left (fun i _ => hfst i)
  have hn' : ((items.map f).map Prod.fst).Nodup := by
    rw [hcomp]
    exact hn
  have hpair : f X = (keyF X, (f X).2) := by
    rw [← hfst X]
  have hmem : (keyF X, (f X).2) ∈ items.map f := by
    rw [← hpair]
    exact List.mem_map_of_mem f hX
  exact lookupKey_pyDict_of_nodup hn' hmem

/-- The special case where the entry key is the item itself. -/
theorem lookup_mapped_pyDict_id {β : Type} {items : List Str}
    {f : Str → Str × β} (hfst : ∀ i, (f i).1 = i) (hn : items.Nodup)
    {X : Str} (hX : X ∈ items) :
    lookupKey (pyDict (items.map f)) X = some (f X).2 := by
  have hn' : (items.map (fun i => i)).Nodup := by
    rw [map_self]
    exact hn
  exact lookup_mapped_pyDict hfst hn' hX

/-! ### Claim C1 -/

/-- Claim C1 counterexample: for the `src/code.py` walk the claim fails.
The fetcher answers the walked path with the single-line Leaf response
`"i-0123"` (no trailing separator), yet `_get_metadata_recursive`
does not return `Value("i-0123")`: it treats the response as a listing
and returns a one-entry mapping keyed by the response text, whose value
records the failed fetch of the made-up child path. -/
theorem c1_counterexample :
    getMetadataRecursive
      (fun p => if p = [] then Except.ok (S "i-0123")
        else Except.error (S "boom")) 2 []
    = CVal.dict [(S "i-0123",
        CVal.str (S "Error: Failed to retrieve metadata from i-0123: boom"))]
    ∧ getMetadataRecursive
      (fun p => if p = [] then Except.ok (S "i-0123")
        else Except.error (S "boom")) 2 []
      ≠ CVal.str (S "i-0123") :=
  ⟨rfl, fun h => CVal.noConfusion h⟩

/-- Claim C1 (amended): for the walk of `src/aws_metadata_query.py`
(`_get_nested_metadata`), every fetcher response that is a Leaf per the
syntactic rule (does not end with the separator and contains no
newline) is returned as `Value(text)` with the response text unchanged;
the walk of `src/code.py` instead treats every successful response as a
listing. -/
theorem c1_leaf_value_amended (fetch : Str → Option Str) (fuel : Nat)
    (endpoint content : Str) (h : fetch endpoint = some content)
    (hdir : isDirContent content = false) :
    getNestedMetadata fetch (fuel + 1) endpoint = AVal.str content :=
  getNestedMetadata_leaf h hdir fuel

/-- Witness for C1 (amended) at the Leaf response `"i-0123"`. -/
theorem c1_leaf_value_amended_witness :
    getNestedMetadata (fun _ => some (S "i-0123")) 1 []
    = AVal.str (S "i-0123") :=
  c1_leaf_value_amended _ 0 [] (S "i-0123") rfl (by decide)

/-! ### Claim C3 -/

/-- Claim C3 counterexample: for the walk of `src/aws_metadata_query.py`
the claim fails.  The empty response `""` neither ends with the
separator nor contains a newline, so `_get_nested_metadata` classifies
it as a Leaf and returns the Value `""`, not an empty Subtree. -/
theorem c3_counterexample :
    getNestedMetadata (fun _ => some []) 1 [] = AVal.str []
    ∧ getNestedMetadata (fun _ => some []) 1 [] ≠ AVal.dict [] :=
  ⟨rfl, fun h => AVal.noConfusion h⟩

/-- Claim C3 (amended): for the walk of `src/code.py`
(`_get_metadata_recursive`), an empty response `""` yields the empty
mapping (no lines survive the filter), not an error and not a value;
the walk of `src/aws_metadata_query.py` instead returns `Value("")`. -/
theorem c3_empty_listing_amended (net : Str → Except Str Str) (fuel : Nat)
    (path : Str) (h : net path = Except.ok []) :
    getMetadataRecursive net (fuel + 1) path = CVal.dict [] := by
  have hm : makeRequest net path = Except.ok [] := by
    rw [makeRequest, h]
  rw [getMetadataRecursive_ok hm]
  rfl

/-- Witness for C3 (amended) at the empty response. -/
theorem c3_empty_listing_amended_witness :
    getMetadataRecursive (fun _ => Except.ok []) 1 [] = CVal.dict [] :=
  c3_empty_listing_amended _ 0 [] rfl

/-! ### Claim C5 -/


/-- Claim C5 counterexample: `get_metadata_key` does not replace `'_'`
with the separator.  For the key `"a_b"` the code fetches `"a-b"`
(underscore becomes a dash), not the claimed `"a/b"`: against a fetcher
that only knows the path `"a/b"`, the lookup misses. -/
theorem c5_counterexample :
    getMetadataKey (fun p => if p = S "a/b" then some (S "v") else none)
      (S "a_b") = none
    ∧ (fun p => if p = S "a/b" then some (S "v") else none)
      (claimC5Norm (S "a_b")) = some (S "v") :=
  ⟨rfl, rfl⟩


theorem c5_pointwise (c : Char) :
    (if (if c = '.' then '/' else c) = '_' then '-'
      else (if c = '.' then '/' else c))
    = if c = '.' then '/' else if c = '_' then '-' else c := by
  by_cases h1 : c = '.'
  · subst h1
    rfl
  · rw [if_neg h1, if_neg h1]

/-- Claim C5 (amended): for every key string, `get_metadata_key` of
`src/aws_metadata_query.py` normalizes the key by replacing each `'.'`
with the namespace separator `'/'` and each `'_'` with `'-'` (a dash,
not the separator), applied once before a single non-recursive fetch of
the normalized path. -/
theorem c5_normalization_amended (fetch : Str → Option Str) (key : Str) :
    getMetadataKey fetch key = fetch (specC5Norm key) := by
  unfold getMetadataKey replaceChar specC5Norm
  rw [List.map_map]
  congr 1
  exact List.map_congr_left (fun c _ => c5_pointwise c)

/-! ### Claim C6 -/

/-- Claim C6 counterexample: for `get_metadata_key` of
`src/aws_metadata_query.py` the claim fails.  On a failing fetch the
lookup returns `None`, which carries neither the requested key nor any
failure message: the failure results for two different keys are the
very same value. -/
theorem c6_counterexample :
    getMetadataKey (fun _ => none) (S "instance-id") = none
    ∧ getMetadataKey (fun _ => none) (S "instance-id")
      = getMetadataKey (fun _ => none) (S "ami-id") :=
  ⟨rfl, rfl⟩

/-- Claim C6 (amended): for `get_specific_key` of `src/code.py`, a
failing fetch yields `{"error": msg}` where `msg` spells out both the
requested key and the underlying failure message; `get_metadata_key` of
`src/aws_metadata_query.py` instead returns `None`, carrying neither. -/
theorem c6_lookup_error_amended (net : Str → Except Str Str) (key e : Str)
    (h : net key = Except.error e) :
    getSpecificKey net key
    = [(S "error",
        S "Could not retrieve key '" ++ key ++ S "': "
        ++ (S "Failed to retrieve metadata from " ++ key ++ S ": " ++ e))]
    ∧ (∃ u w : Str,
        S "Could not retrieve key '" ++ key ++ S "': "
        ++ (S "Failed to retrieve metadata from " ++ key ++ S ": " ++ e)
        = u ++ key ++ w)
    ∧ (∃ u : Str,
        S "Could not retrieve key '" ++ key ++ S "': "
        ++ (S "Failed to retrieve metadata from " ++ key ++ S ": " ++ e)
        = u ++ e) := by
  refine ⟨?_, ?_, ?_⟩
  · unfold getSpecificKey
    rw [makeRequest, h]
  · refine ⟨S "Could not retrieve key '",
      S "': " ++ (S "Failed to retrieve metadata from " ++ key ++ S ": " ++ e),
      ?_⟩
    simp only [List.append_assoc]
  · refine ⟨S "Could not retrieve key '" ++ key ++ S "': "
      ++ (S "Failed to retrieve metadata from " ++ key ++ S ": "), ?_⟩
    simp only [List.append_assoc]

/-- Witness for C6 (amended) at a fetcher that times out. -/
theorem c6_lookup_error_amended_witness :
    getSpecificKey (fun _ => Except.error (S "timeout")) (S "ami-id")
    = [(S "error",
        S "Could not retrieve key '" ++ S "ami-id" ++ S "': "
        ++ (S "Failed to retrieve metadata from " ++ S "ami-id" ++ S ": "
          ++ S "timeout"))] :=
  (c6_lookup_error_amended _ (S "ami-id") (S "timeout") rfl).1

/-! ### Claim C8 -/

/-- Claim C8: against an unchanged backing namespace (two fetchers that
agree on every path), two invocations of either walk on the same root
path and fuel yield structurally identical trees: both walks are pure
functions of the fetcher's behaviour. -/
theorem c8_idempotence :
    (∀ (f g : Str → Option Str), (∀ p, f p = g p) →
      ∀ (fuel : Nat) (path : Str),
      getNestedMetadata f fuel path = getNestedMetadata g fuel path)
    ∧ (∀ (f g : Str → Except Str Str), (∀ p, f p = g p) →
      ∀ (fuel : Nat) (path : Str),
      getMetadataRecursive f fuel path = getMetadataRecursive g fuel path) := by
  constructor
  · intro f g h fuel path
    rw [show f = g from funext h]
  · intro f g h fuel path
    rw [show f = g from funext h]

/-- Witness for C8 at a concrete namespace. -/
theorem c8_idempotence_witness :
    getNestedMetadata (fun _ => some (S "v")) 3 []
    = getNestedMetadata (fun _ => some (S "v")) 3 []
    ∧ getMetadataRecursive (fun _ => Except.ok (S "v")) 3 []
    = getMetadataRecursive (fun _ => Except.ok (S "v")) 3 [] :=
  ⟨c8_idempotence.1 _ _ (fun _ => rfl) 3 [],
   c8_idempotence.2 _ _ (fun _ => rfl) 3 []⟩

/-! ### Claim C2 -/

/-- Claim C2: in a full-tree walk, a fetch failure for one listed child
is contained.  For the `src/code.py` walk (first conjunct), when the
fetch of listing line `X` (a non-directory line) raises, the parent
mapping stores the error string `"Error: ..."` under `X` and the walk
returns normally; every listing line is still keyed in the mapping with
the value its own loop-body fetch produces.  For the
`src/aws_metadata_query.py` walk (second conjunct), a child whose fetch
returns `None` is stored as the `None` error marker under its key, and
every listing item is still keyed with its own loop-body value.  Both
statements assume the listing produces pairwise distinct keys (child
names are namespace-unique under their parent). -/
theorem c2_containment :
    (∀ (net : Str → Except Str Str) (fuel : Nat) (path content X e : Str),
      makeRequest net path = Except.ok content →
      ((filteredLines content).map lineKeyC).Nodup →
      X ∈ filteredLines content →
      endsWithSlash X = false →
      makeRequest net (itemPathC path X) = Except.error e →
      ∃ d, getMetadataRecursive net (fuel + 1) path = CVal.dict d
        ∧ lookupKey d X = some (CVal.str (S "Error: " ++ e))
        ∧ ∀ Y, Y ∈ filteredLines content →
            lookupKey d (lineKeyC Y) = some (childEntryC net fuel path Y).2)
    ∧ (∀ (fetch : Str → Option Str) (fuel : Nat) (e content X : Str),
      fetch e = some content →
      isDirContent content = true →
      (parseDirectory content).Nodup →
      X ∈ parseDirectory content →
      fetch (rstripSlash (itemEndpointA e X)) = none →
      ∃ d, getNestedMetadata fetch (fuel + 1) e = AVal.dict d
        ∧ lookupKey d X = some AVal.null
        ∧ ∀ Y, Y ∈ parseDirectory content →
            lookupKey d Y = some (childEntryA fetch fuel e Y).2) := by
  constructor
  · intro net fuel path content X e hok hnodup hX hXs hXe
    refine ⟨pyDict ((filteredLines content).map (childEntryC net fuel path)),
      getMetadataRecursive_ok hok fuel, ?_, ?_⟩
    · have h1 := lookup_mapped_pyDict (childEntryC_fst net fuel path) hnodup hX
      have h2 : lineKeyC X = X := by
        unfold lineKeyC
        rw [if_neg (by rw [hXs]; exact Bool.false_ne_true)]
      have h3 : (childEntryC net fuel path X).2
          = CVal.str (S "Error: " ++ e) := by
        unfold childEntryC
        rw [if_neg (by rw [hXs]; exact Bool.false_ne_true), hXe]
      rw [h2, h3] at h1
      exact h1
    · intro Y hY
      exact lookup_mapped_pyDict (childEntryC_fst net fuel path) hnodup hY
  · intro fetch fuel e content X hok hdir hnodup hX hXn
    refine ⟨pyDict ((parseDirectory content).map (childEntryA fetch fuel e)),
      getNestedMetadata_dir hok hdir fuel, ?_, ?_⟩
    · have h1 := lookup_mapped_pyDict_id
        (childEntryA_fst fetch fuel e) hnodup hX
      have h3 : (childEntryA fetch fuel e X).2 = AVal.null := by
        unfold childEntryA
        rw [hXn]
      rw [h3] at h1
      exact h1
    · intro Y hY
      exact lookup_mapped_pyDict_id (childEntryA_fst fetch fuel e) hnodup hY

/-- Witness for C2 at a two-child listing whose second child times out,
for both walks. -/
theorem c2_containment_witness :
    (∃ d, getMetadataRecursive
        (fun p => if p = [] then Except.ok (S "inst\nami\n")
          else if p = S "inst" then Except.ok (S "i-0123")
          else Except.error (S "timeout")) 1 []
      = CVal.dict d
      ∧ lookupKey d (S "ami")
        = some (CVal.str (S "Error: "
            ++ S "Failed to retrieve metadata from ami: timeout"))
      ∧ ∀ Y, Y ∈ filteredLines (S "inst\nami\n") →
          lookupKey d (lineKeyC Y)
          = some (childEntryC
              (fun p => if p = [] then Except.ok (S "inst\nami\n")
                else if p = S "inst" then Except.ok (S "i-0123")
                else Except.error (S "timeout")) 0 [] Y).2)
    ∧ (∃ d, getNestedMetadata
        (fun p => if p = [] then some (S "inst\nami\n")
          else if p = S "inst" then some (S "i-0123") else none) 1 []
      = AVal.dict d
      ∧ lookupKey d (S "ami") = some AVal.null
      ∧ ∀ Y, Y ∈ parseDirectory (S "inst\nami\n") →
          lookupKey d Y
          = some (childEntryA
              (fun p => if p = [] then some (S "inst\nami\n")
                else if p = S "inst" then some (S "i-0123") else none)
              0 [] Y).2) :=
  ⟨c2_containment.1 _ 0 [] (S "inst\nami\n") (S "ami")
      (S "Failed to retrieve metadata from ami: timeout")
      rfl (by decide) (by decide) (by decide) rfl,
   c2_containment.2 _ 0 [] (S "inst\nami\n") (S "ami")
      rfl (by decide) (by decide) (by decide) rfl⟩

/-! ### Claim C4 -/


/-- Claim C4 counterexample: for the listing response `"x//\n"` the
claim's key `"x/"` (one trailing separator stripped from the non-empty
line `"x//"`) is not a key of the mapping the walk returns — the code
strips every trailing separator and keys the child as `"x"`. -/
theorem c4_counterexample :
    getNestedMetadata (fun p => if p = [] then some (S "x//\n") else none)
      2 []
    = AVal.dict [(S "x", AVal.null)]
    ∧ claimC4Keys (S "x//\n") = [S "x/"]
    ∧ S "x/" ∉ (AVal.dict [(S "x", AVal.null)] |> fun t =>
        match t with
        | AVal.dict d => d.map Prod.fst
        | _ => []) := by
  refine ⟨rfl, rfl, ?_⟩
  decide


/-- Claim C4 (amended): for every response the
`src/aws_metadata_query.py` walk classifies as a Listing (raw text ends
with the separator or contains a newline), the walk returns a mapping
whose key set equals the set of non-empty lines of the
whitespace-trimmed response with all trailing separators stripped from
each. -/
theorem c4_listing_keys_amended (fetch : Str → Option Str) (fuel : Nat)
    (endpoint content : Str) (h : fetch endpoint = some content)
    (hdir : isDirContent content = true) :
    ∃ entries, getNestedMetadata fetch (fuel + 1) endpoint
      = AVal.dict entries
    ∧ ∀ k, k ∈ entries.map Prod.fst ↔ k ∈ listingKeys content := by
  refine ⟨_, getNestedMetadata_dir h hdir fuel, ?_⟩
  intro k
  rw [mem_keys_pyDict, List.map_map]
  have hcomp : ((parseDirectory content).map
      (Prod.fst ∘ childEntryA fetch fuel endpoint))
      = (parseDirectory content).map (fun i => i) :=
    List.map_congr_left (fun i _ => childEntryA_fst fetch fuel endpoint i)
  rw [hcomp, map_self]
  exact Iff.rfl

/-- Witness for C4 (amended) at the listing `"a\nb/\n"`. -/
theorem c4_listing_keys_amended_witness :
    ∃ entries, getNestedMetadata
      (fun p => if p = [] then some (S "a\nb/\n") else none) 1 []
      = AVal.dict entries
    ∧ ∀ k, k ∈ entries.map Prod.fst ↔ k ∈ listingKeys (S "a\nb/\n") :=
  c4_listing_keys_amended _ 0 [] (S "a\nb/\n") rfl (by decide)

/-! ### Claim C9 -/

/-- Claim C9: the walks perform no cycle detection and are bounded only
by the namespace's depth.  When the namespace below the starting path is
finite and acyclic — expressed as a depth bound on the recursion tree
(`ABounded` for `_get_nested_metadata`, `CBounded` for
`_get_metadata_recursive`) — the walk terminates: any fuel at least the
depth bound produces the very same tree as the bound itself, so the
recursion needs no more nested calls than the namespace is deep. -/
theorem c9_termination :
    (∀ (fetch : Str → Option Str) (n : Nat) (e : Str),
      ABounded fetch n e → ∀ m, n ≤ m →
      getNestedMetadata fetch (m + 1) e = getNestedMetadata fetch (n + 1) e)
    ∧ (∀ (net : Str → Except Str Str) (n : Nat) (p : Str),
      CBounded net n p → ∀ m, n ≤ m →
      getMetadataRecursive net (m + 1) p = getMetadataRecursive net (n + 1) p) :=
  ⟨fun _ _ _ hb => walkA_fuel_stable hb,
   fun _ _ _ hb => walkC_fuel_stable hb⟩

/-- Witness for C9 at depth-zero namespaces. -/
theorem c9_termination_witness :
    getNestedMetadata (fun _ => none) 6 []
    = getNestedMetadata (fun _ => none) 1 []
    ∧ getMetadataRecursive (fun _ => Except.error []) 6 []
    = getMetadataRecursive (fun _ => Except.error []) 1 [] :=
  ⟨c9_termination.1 _ 0 []
      (ABounded.flat 0 [] (fun _ h => Option.noConfusion h)) 5 (Nat.zero_le 5),
   c9_termination.2 _ 0 []
      (CBounded.flat 0 [] (fun _ h => Except.noConfusion h)) 5 (Nat.zero_le 5)⟩

/-! ### Claim C10 -/

/-- Claim C10: `list_available_keys` emits a slash-joined path for every
node of the materialized tree that is not a mapping, error markers
included.  First conjunct: the emitted paths are exactly the first
components of the instrumented enumeration (no node is skipped).
Second conjunct: any non-dict entry — in particular a `None` error
marker — appears in the enumeration under its joined path.  Third and
fourth conjuncts, at a concrete namespace whose child `bad` fails: the
enumerated keys contain `bad` even though its node is the error marker,
and looking `bad` up fails. -/
theorem c10_enumerates_errors :
    (∀ (pre : Str) (entries : List (Str × AVal)),
      collectKeys pre entries = (collectLeaves pre entries).map Prod.fst)
    ∧ (∀ (pre : Str) (entries : List (Str × AVal)) (k : Str) (v : AVal),
      (k, v) ∈ entries → (∀ e', v ≠ AVal.dict e') →
      (joinKey pre k, v) ∈ collectLeaves pre entries)
    ∧ listAvailableKeys
        (fun p => if p = [] then some (S "good\nbad\n")
          else if p = S "good" then some (S "v") else none) 2
      = some [S "good", S "bad"]
    ∧ getMetadataKey
        (fun p => if p = [] then some (S "good\nbad\n")
          else if p = S "good" then some (S "v") else none) (S "bad")
      = none := by
  refine ⟨collectKeys_eq_map_fst, mem_collectLeaves_of_mem, ?_, rfl⟩
  show some (collectKeys []
    [(S "good", AVal.str (S "v")), (S "bad", AVal.null)])
    = some [S "good", S "bad"]
  rw [collectKeys_cons_str, collectKeys_cons_null, collectKeys_nil]
  rfl

/-- Witness for C10: the error-marker child `bad` is enumerated. -/
theorem c10_enumerates_errors_witness :
    (S "bad", AVal.null)
    ∈ collectLeaves [] [(S "good", AVal.str (S "v")), (S "bad", AVal.null)] :=
  c10_enumerates_errors.2.1 []
    [(S "good", AVal.str (S "v")), (S "bad", AVal.null)]
    (S "bad") AVal.null
    (List.mem_cons_of_mem _ (List.mem_cons_self _ _))
    (fun _ h => AVal.noConfusion h)

/-! ### Claim C7 -/

/-- Claim C7 counterexample: a child name containing `'.'` breaks the
round trip.  The root listing is `"a.b\n"` with leaf `a.b -> "v"`: the
enumerator emits the path `"a.b"` for the non-error `Value "v"` node,
but `get_metadata_key` normalizes `"a.b"` to `"a/b"` before fetching,
so the lookup fails instead of returning `"v"`. -/
theorem c7_counterexample :
    listAvailableKeys
      (fun p => if p = [] then some (S "a.b\n")
        else if p = S "a.b" then some (S "v") else none) 2
    = some [S "a.b"]
    ∧ getNestedMetadata
      (fun p => if p = [] then some (S "a.b\n")
        else if p = S "a.b" then some (S "v") else none) 2 []
    = AVal.dict [(S "a.b", AVal.str (S "v"))]
    ∧ getMetadataKey
      (fun p => if p = [] then some (S "a.b\n")
        else if p = S "a.b" then some (S "v") else none) (S "a.b")
    = none := by
  refine ⟨?_, rfl, rfl⟩
  show some (collectKeys [] [(S "a.b", AVal.str (S "v"))]) = some [S "a.b"]
  rw [collectKeys_cons_str, collectKeys_nil]
  rfl

/-- Claim C7 (amended): the round trip holds for fetchers that ignore
trailing separators (`fetch p = fetch (p.rstrip('/'))`), never list an
empty child name, and for emitted paths free of the alias characters
`'.'` and `'_'`.  Then `list_available_keys`' enumeration is exactly
the paths of the instrumented enumeration, and every path whose
embedded node is a non-error `Value v` is returned as `v` by
`get_metadata_key` against the same fetcher. -/
theorem c7_roundtrip_amended (fetch : Str → Option Str)
    (hS : ∀ p, fetch p = fetch (rstripSlash p))
    (hG : ∀ p c, fetch p = some c → isDirContent c = true →
      [] ∉ parseDirectory c)
    (fuel : Nat) (entries : List (Str × AVal))
    (hw : getNestedMetadata fetch fuel [] = AVal.dict entries) :
    collectKeys [] entries = (collectLeaves [] entries).map Prod.fst
    ∧ ∀ p v, (p, AVal.str v) ∈ collectLeaves [] entries →
      '.' ∉ p → '_' ∉ p → getMetadataKey fetch p = some v := by
  constructor
  · exact collectKeys_eq_map_fst [] entries
  · intro p v hm hdot hund
    have hfa : Faithful fetch [] (AVal.dict entries) := by
      rw [← hw]
      exact walk_faithful hS hG fuel [] [] (Or.inl ⟨rfl, rfl⟩)
    have hmem : ∀ k v', (k, v') ∈ entries →
        Faithful fetch (joinKey [] k) v' := by
      cases hfa with
      | dict h => exact h
    have hfp : Faithful fetch p (AVal.str v) :=
      faithful_collectLeaves [] entries hmem p (AVal.str v) hm
    have hfetch : fetch p = some v := by
      cases hfp with
      | str h => exact h
    rw [getMetadataKey_eq_fetch hdot hund]
    exact hfetch



/-- Witness for C7 (amended): in the `fetchW` namespace the enumerated
leaf path `a` looks up to its embedded value `"v"`. -/
theorem c7_roundtrip_amended_witness :
    getMetadataKey fetchW (S "a") = some (S "v") := by
  have h := (c7_roundtrip_amended fetchW
    (fun p => congrArg tableW (rstripSlash_idem p).symm)
    (by
      intro p c h hdir
      unfold fetchW tableW at h
      split at h
      · cases h
        decide
      · split at h
        · cases h
          exact absurd hdir (by decide)
        · cases h)
    2 [(S "a", AVal.str (S "v"))] rfl).2
  refine h (S "a") (S "v") ?_ (by decide) (by decide)
  rw [collectLeaves_cons_str, collectLeaves_nil]
  exact List.mem_singleton.mpr rfl
